import Mathlib

/-!
Shallow embedding of the `redel` byte-replacement engine (package `redel`,
file `redel.go`: the multi-delimiter engine whose `Redel` struct carries a
per-instance random EOF token `eof`).

The engine wraps `bufio.Scanner`: the split function `ScanByDelimiters`
cuts the buffered window at delimiter matches, and the loop in
`replaceFilterFunc` post-processes every token (delimiter stripping,
replacement appending) before invoking the sink callback.

Modelling conventions:
* Byte strings are `List Nat`.
* The scanner is modelled as operating on a single fully buffered window
  (inputs smaller than the scanner's read buffer): every call to the split
  function sees the whole unconsumed remainder with `atEOF = true`.  For
  such inputs this is exactly the behaviour of `bufio.Scanner`, because the
  split function consults `atEOF` only on the empty-window and
  no-candidate paths.
* The random 7-byte EOF token is a parameter `eof` of every operation.
* A Go slice expression `data[x1:x2]` panics when `x1 > x2`; all faulting
  paths are modelled with `Except Unit`, a `.error ()` meaning the Go
  program panics (no further output).
* The side effects of the split closure (appending to `valuesData`) are
  returned alongside each token; the driving loop replays them in order,
  which matches the interleaving of `bufio.Scanner` (one split call per
  produced token, performed during the `Scan` call that yields it).
* Invocations of the decision callback `filterFunc` are recorded in a
  trace list, so that claims about when the callback runs are statable.
-/

namespace Redel

/-- Byte strings are modelled as lists of naturals (byte values). -/
abbrev Bytes := List Nat

/-- Model of Go `bytes.HasPrefix s p`. -/
def startsWith (s p : Bytes) : Bool :=
  s.take p.length == p

/-- Model of Go `bytes.HasSuffix s p`. -/
def endsWith (s p : Bytes) : Bool :=
  s.drop (s.length - p.length) == p

/-- Model of Go `bytes.Index s pat`: index of the first occurrence of `pat`
in `s`, `none` standing for Go's `-1`. -/
def firstIdx : Bytes → Bytes → Option Nat
  | [], pat => if startsWith [] pat then some 0 else none
  | b :: t, pat =>
    if startsWith (b :: t) pat then some 0 else (firstIdx t pat).map (· + 1)

/-- Model of Go `bytes.Replace s old nil 1`: remove the first occurrence of
`old`.  Go's `Replace` with an empty `old` and `n = 1` inserts the (empty)
replacement at the front, i.e. it is the identity here. -/
def replaceFirst (s old : Bytes) : Bytes :=
  if old = [] then s
  else
    match firstIdx s old with
    | some i => s.take i ++ s.drop (i + old.length)
    | none => s

/-- Model of Go `bytes.Split(s, sep)[0]` for the nonempty separators used by
the engine (`sep` is the 7-byte EOF token): everything before the first
occurrence of `sep`, or all of `s` when `sep` does not occur. -/
def splitFirst (s sep : Bytes) : Bytes :=
  match firstIdx s sep with
  | some i => s.take i
  | none => s

/-- Source type `Delimiter` (redel.go): a start/end delimiter pair. -/
structure Delimiter where
  Start : Bytes
  End : Bytes
deriving DecidableEq

/-- Source type `earlyDelimiter` (redel.go): a candidate match found for one
configured pair in the current window. -/
structure earlyDelimiter where
  value : Bytes
  delimiter : Delimiter
  startIndex : Nat
  endIndex : Nat
deriving DecidableEq

/-- Source type `replacementData` (redel.go): a recorded pending value. -/
structure replacementData where
  delimiter : Delimiter
  value : Bytes
deriving DecidableEq

/-- The Go zero value of `Delimiter` (both fields nil). -/
def zeroDelimiter : Delimiter := ⟨[], []⟩

/-- The candidate search of `ScanByDelimiters` for a single delimiter pair
(redel.go lines 116-139).  `x2` is computed as in the source,
`from + endLen + (to - endLen)`, over integers (Go `int` arithmetic).
A `.error ()` models the Go slice `data[x1:x2]` panicking (`x1 > x2`). -/
def candidateFor (data : Bytes) (del : Delimiter) : Except Unit (Option earlyDelimiter) :=
  if del.Start.length ≤ 0 ∨ del.End.length ≤ 0 then .ok none
  else
    match firstIdx data del.Start with
    | none => .ok none
    | some fr =>
      match firstIdx (data.drop fr) del.End with
      | none => .ok none
      | some toIdx =>
        let x1 : Nat := fr + del.Start.length
        let x2 : Int := (fr : Int) + (del.End.length : Int) + ((toIdx : Int) - (del.End.length : Int))
        if (x1 : Int) ≤ x2 ∧ x2 ≤ (data.length : Int) then
          .ok (some ⟨(data.take x2.toNat).drop x1, del, x1, x2.toNat⟩)
        else .error ()

/-- The delimiter loop of `ScanByDelimiters` (redel.go lines 116-139):
collect the candidates of all configured pairs, in configuration order. -/
def earlyDelimitersFor (data : Bytes) : List Delimiter → Except Unit (List earlyDelimiter)
  | [] => .ok []
  | del :: rest =>
    match candidateFor data del with
    | .error e => .error e
    | .ok c =>
      match earlyDelimitersFor data rest with
      | .error e => .error e
      | .ok cs =>
        match c with
        | some e => .ok (e :: cs)
        | none => .ok cs

/-- The closer-delimiter selection of `ScanByDelimiters` (redel.go lines
141-147): the first candidate of minimal `startIndex`. -/
def selectCloser (cands : List earlyDelimiter) : Option earlyDelimiter :=
  match cands with
  | [] => none
  | c :: rest =>
    some (rest.foldl (fun acc d => if d.startIndex < acc.startIndex then d else acc) c)

/-- Outcome of one call of the split function. -/
inductive SplitOut where
  /-- `return 0, nil, nil` at EOF with an empty window: scanning stops. -/
  | stop
  /-- `return advance, token, nil`, together with the value appended to
  `valuesData` during this call (if any). -/
  | tok (advance : Nat) (token : Bytes) (recorded : Option replacementData)
deriving DecidableEq

/-- The split function `ScanByDelimiters` (redel.go lines 107-172), with the
window fully buffered and `atEOF = true` (see the module comment).  The
append to `valuesData` (lines 153-158) is returned as the `recorded`
component. -/
def ScanByDelimiters (delimiters : List Delimiter) (eof : Bytes) (data : Bytes) :
    Except Unit SplitOut :=
  if data.length = 0 then .ok .stop
  else
    match earlyDelimitersFor data delimiters with
    | .error e => .error e
    | .ok cands =>
      match selectCloser cands with
      | some closer =>
        .ok (.tok closer.endIndex (data.take closer.startIndex)
          (if 0 < closer.value.length then some ⟨closer.delimiter, closer.value⟩ else none))
      | none => .ok (.tok data.length (data ++ eof) none)

/-- One produced scanner token, together with the `valuesData` append that
happened while producing it. -/
structure ScanItem where
  token : Bytes
  recorded : Option replacementData
deriving DecidableEq

/-- The token stream produced by `bufio.Scanner` driven by
`ScanByDelimiters`, fuel-indexed (the fuel makes the recursion structural;
`scanTokens` supplies enough fuel).  The scanner requires `0 < advance ≤
len(data)` to make progress; a violation is modelled as `.error ()` (the Go
scanner would fail with an advance error or loop without progress). -/
def scanTokensF (delimiters : List Delimiter) (eof : Bytes) :
    Nat → Bytes → Except Unit (List ScanItem)
  | 0, _ => .error ()
  | fuel + 1, data =>
    match ScanByDelimiters delimiters eof data with
    | .error e => .error e
    | .ok .stop => .ok []
    | .ok (.tok advance token recorded) =>
      if 0 < advance ∧ advance ≤ data.length then
        match scanTokensF delimiters eof fuel (data.drop advance) with
        | .error e => .error e
        | .ok rest => .ok (⟨token, recorded⟩ :: rest)
      else .error ()

/-- The full token stream of one scan of `input`. -/
def scanTokens (delimiters : List Delimiter) (eof input : Bytes) :
    Except Unit (List ScanItem) :=
  scanTokensF delimiters eof (input.length + 1) input

/-- The cross-iteration state of the loop in `replaceFilterFunc`
(redel.go lines 105, 176-178). -/
structure EngineState where
  valuesData : List replacementData
  hasStartPrevDelimiter : Bool
  previousDelimiter : Delimiter
deriving DecidableEq

/-- The initial loop state. -/
def initState : EngineState := ⟨[], false, zeroDelimiter⟩

/-- The delimiter-stripping block of the scan loop (redel.go lines 202-227),
factored out of `engineStep`.  Arguments: the delimiter taken from the last
recorded value (`delimiterData`), the `hasStartPrevDelimiter` flag and
`previousDelimiter` from the loop state, and the current chunk `bytesR0`.
Returns the stripped chunk, the updated flag, and the updated previous
delimiter. -/
def stripDelimiters (delimiterData : Delimiter) (hasStartPrev : Bool)
    (previousDelimiter : Delimiter) (bytesR0 : Bytes) : Bytes × Bool × Delimiter :=
  -- 1. check for the first start delimiter (once)
  let s1 :=
    if ¬ hasStartPrev ∧ endsWith bytesR0 delimiterData.Start then
      (replaceFirst bytesR0 delimiterData.Start, true, delimiterData)
    else (bytesR0, hasStartPrev, previousDelimiter)
  -- 2. check for start and end delimiters (many times)
  if s1.2.1 then
    -- 2.1. check for a previous end delimiter (in current data)
    let s2 :=
      if startsWith s1.1 s1.2.2.End then
        (replaceFirst s1.1 s1.2.2.End, true, delimiterData)
      else (s1.1, false, s1.2.2)
    -- 2.2. check for a new start delimiter (in current data)
    let bytesR3 :=
      if s2.2.1 ∧ endsWith s2.1 delimiterData.Start then
        replaceFirst s2.1 delimiterData.Start
      else s2.1
    (bytesR3, s1.2.1, s2.2.2)
  else s1

/-- One iteration of the scan loop of `replaceFilterFunc` (redel.go lines
181-248), processing one scanner token.  Returns the new state, the chunk
passed to the sink with its `atEOF` flag, and the argument of the
`filterFunc` invocation of this iteration (empty list when the callback is
not invoked, i.e. when `valuesData` is still empty). -/
def engineStep (filterFunc : Bytes → Bytes) (preserveDelimiters replaceWith : Bool)
    (replacement eof : Bytes) (st : EngineState) (item : ScanItem) :
    EngineState × (Bytes × Bool) × List Bytes :=
  let valuesData :=
    match item.recorded with
    | some rdta => st.valuesData ++ [rdta]
    | none => st.valuesData
  let bytesR0 := item.token
  let atEOF := endsWith bytesR0 eof
  -- lines 188-198: `valueCurrentLen >= 0` iff `valuesData` is nonempty
  let lastVal := valuesData.getLast?
  let valueCurrent := match lastVal with | some rdta => rdta.value | none => []
  let valueToReplace := match lastVal with | some rdta => filterFunc rdta.value | none => []
  let calls := match lastVal with | some rdta => [rdta.value] | none => []
  let delimiterData := match lastVal with | some rdta => rdta.delimiter | none => zeroDelimiter
  -- lines 202-227: delimiter stripping (only when preserveDelimiters is false)
  let stripped :=
    if preserveDelimiters then (bytesR0, st.hasStartPrevDelimiter, st.previousDelimiter)
    else stripDelimiters delimiterData st.hasStartPrevDelimiter st.previousDelimiter bytesR0
  -- lines 229-246: final append or EOF split
  let emitted :=
    if atEOF then splitFirst stripped.1 eof
    else if replaceWith then stripped.1 ++ valueToReplace
    else if valueToReplace.length = 0 then stripped.1 ++ valueCurrent
    else stripped.1 ++ replacement
  (⟨valuesData, stripped.2.1, stripped.2.2⟩, (emitted, atEOF), calls)

/-- The scan loop of `replaceFilterFunc` over the token stream: collects, in
order, the chunks passed to the sink (`replacementMapFunc`) with their
`atEOF` flags, and the trace of `filterFunc` invocation arguments. -/
def engineGo (filterFunc : Bytes → Bytes) (preserveDelimiters replaceWith : Bool)
    (replacement eof : Bytes) : EngineState → List ScanItem →
    List (Bytes × Bool) × List Bytes
  | _, [] => ([], [])
  | st, item :: items =>
    let step := engineStep filterFunc preserveDelimiters replaceWith replacement eof st item
    let rest := engineGo filterFunc preserveDelimiters replaceWith replacement eof step.1 items
    (step.2.1 :: rest.1, step.2.2 ++ rest.2)

theorem engineGo_nil (f : Bytes → Bytes) (p rw : Bool) (repl eof : Bytes)
    (st : EngineState) : engineGo f p rw repl eof st [] = ([], []) := rfl

theorem engineGo_cons (f : Bytes → Bytes) (p rw : Bool) (repl eof : Bytes)
    (st : EngineState) (item : ScanItem) (items : List ScanItem) :
    engineGo f p rw repl eof st (item :: items) =
      ((engineStep f p rw repl eof st item).2.1 ::
          (engineGo f p rw repl eof (engineStep f p rw repl eof st item).1 items).1,
        (engineStep f p rw repl eof st item).2.2 ++
          (engineGo f p rw repl eof (engineStep f p rw repl eof st item).1 items).2) := rfl

/-- Source function `replaceFilterFunc` (redel.go lines 95-250): run the
scanner and the replacement loop over `input`.  Returns the list of sink
invocations `(chunk, atEOF)` in order, and the trace of `filterFunc`
invocation arguments. -/
def replaceFilterFunc (delimiters : List Delimiter) (eof : Bytes)
    (filterFunc : Bytes → Bytes) (preserveDelimiters replaceWith : Bool)
    (replacement input : Bytes) :
    Except Unit (List (Bytes × Bool) × List Bytes) :=
  match scanTokens delimiters eof input with
  | .error e => .error e
  | .ok items =>
    .ok (engineGo filterFunc preserveDelimiters replaceWith replacement eof initState items)

/-- Source function `Replace` (redel.go lines 252-257). -/
def Replace (delimiters : List Delimiter) (eof replacement input : Bytes) :
    Except Unit (List (Bytes × Bool) × List Bytes) :=
  replaceFilterFunc delimiters eof (fun value => value) false false replacement input

/-- Source function `ReplaceFilter` (redel.go lines 259-277): the boolean
filter is adapted to a byte filter returning `"1"` (byte 49) or nil. -/
def ReplaceFilter (delimiters : List Delimiter) (eof replacement : Bytes)
    (filterFunc : Bytes → Bool) (preserveDelimiters : Bool) (input : Bytes) :
    Except Unit (List (Bytes × Bool) × List Bytes) :=
  replaceFilterFunc delimiters eof
    (fun matchValue => if filterFunc matchValue then [49] else [])
    preserveDelimiters false replacement input

/-- Source function `ReplaceFilterWith` (redel.go lines 279-286). -/
def ReplaceFilterWith (delimiters : List Delimiter) (eof : Bytes)
    (filterReplaceFunc : Bytes → Bytes) (preserveDelimiters : Bool) (input : Bytes) :
    Except Unit (List (Bytes × Bool) × List Bytes) :=
  replaceFilterFunc delimiters eof filterReplaceFunc preserveDelimiters true [] input

/-- Concatenation of the chunks passed to the sink. -/
def concatChunks (l : List (Bytes × Bool)) : Bytes :=
  l.foldr (fun c acc => c.1 ++ acc) []

/-- All bytes below 128 (the inputs and delimiters of the concrete claims
are ASCII text). -/
def asciiBytes (l : Bytes) : Prop := ∀ b ∈ l, b < 128

/-- A nonempty byte string all of whose bytes are at least 128.  This is the
well-behavedness condition we impose on the engine's random EOF token
relative to ASCII input: such a token cannot occur inside the input, cannot
straddle the boundary when appended to it, and cannot interfere with the
ASCII delimiter tokens. -/
def highBytes (l : Bytes) : Prop := l ≠ [] ∧ ∀ b ∈ l, 128 ≤ b

instance (l : Bytes) : Decidable (asciiBytes l) :=
  inferInstanceAs (Decidable (∀ b ∈ l, b < 128))

instance (l : Bytes) : Decidable (highBytes l) :=
  inferInstanceAs (Decidable (_ ∧ _))

theorem startsWith_eq_true_iff {s p : Bytes} :
    startsWith s p = true ↔ s.take p.length = p := by
  simp [startsWith]

theorem endsWith_eq_true_iff {s p : Bytes} :
    endsWith s p = true ↔ s.drop (s.length - p.length) = p := by
  simp [endsWith]

theorem startsWith_nil_pat (s : Bytes) : startsWith s [] = true := by
  simp [startsWith]

theorem endsWith_nil_pat (s : Bytes) : endsWith s [] = true := by
  simp [endsWith]

theorem endsWith_append_self (a b : Bytes) : endsWith (a ++ b) b = true := by
  rw [endsWith_eq_true_iff, List.length_append, Nat.add_sub_cancel]
  exact List.drop_left a b

theorem mem_of_startsWith {s p : Bytes} (h : startsWith s p = true) :
    ∀ b ∈ p, b ∈ s := by
  rw [startsWith_eq_true_iff] at h
  intro b hb
  rw [← h] at hb
  exact List.take_subset _ _ hb

theorem mem_of_endsWith {s p : Bytes} (h : endsWith s p = true) :
    ∀ b ∈ p, b ∈ s := by
  rw [endsWith_eq_true_iff] at h
  intro b hb
  rw [← h] at hb
  exact List.drop_subset _ _ hb

theorem startsWith_length_le {s p : Bytes} (h : startsWith s p = true) :
    p.length ≤ s.length := by
  rw [startsWith_eq_true_iff] at h
  have h2 := congrArg List.length h
  simp only [List.length_take] at h2
  omega

theorem startsWith_self (s : Bytes) : startsWith s s = true := by
  rw [startsWith_eq_true_iff]
  exact List.take_length s

theorem firstIdx_le_length {pat : Bytes} :
    ∀ {s : Bytes} {i : Nat}, firstIdx s pat = some i → i ≤ s.length := by
  intro s
  induction s with
  | nil =>
    intro i h
    unfold firstIdx at h
    split at h
    · cases h; omega
    · cases h
  | cons b t ih =>
    intro i h
    unfold firstIdx at h
    split at h
    · cases h; omega
    · cases hrec : firstIdx t pat with
      | none => rw [hrec] at h; cases h
      | some j =>
        rw [hrec] at h
        simp only [Option.map_some'] at h
        cases h
        have := ih hrec
        simp only [List.length_cons]
        omega

theorem firstIdx_startsWith {pat : Bytes} :
    ∀ {s : Bytes} {i : Nat}, firstIdx s pat = some i →
      startsWith (s.drop i) pat = true := by
  intro s
  induction s with
  | nil =>
    intro i h
    unfold firstIdx at h
    split at h
    · cases h; assumption
    · cases h
  | cons b t ih =>
    intro i h
    unfold firstIdx at h
    split at h
    · cases h; assumption
    · cases hrec : firstIdx t pat with
      | none => rw [hrec] at h; cases h
      | some j =>
        rw [hrec] at h
        simp only [Option.map_some'] at h
        cases h
        simpa using ih hrec

theorem firstIdx_add_le {s pat : Bytes} {i : Nat} (h : firstIdx s pat = some i) :
    i + pat.length ≤ s.length := by
  have h1 := firstIdx_le_length h
  have h2 := startsWith_length_le (firstIdx_startsWith h)
  simp only [List.length_drop] at h2
  omega

theorem startsWith_high_pat_false {u s : Bytes} (hu : asciiBytes u)
    (hs1 : s ≠ []) (hs : ∀ b ∈ s, 128 ≤ b) : startsWith u s = false := by
  cases h : startsWith u s with
  | false => rfl
  | true =>
    exfalso
    obtain ⟨b, hb⟩ := List.exists_mem_of_ne_nil s hs1
    have h1 := hu b (mem_of_startsWith h b hb)
    have h2 := hs b hb
    omega

theorem endsWith_high_pat_false {t e : Bytes} (ht : asciiBytes t)
    (he : highBytes e) : endsWith t e = false := by
  cases h : endsWith t e with
  | false => rfl
  | true =>
    exfalso
    obtain ⟨b, hb⟩ := List.exists_mem_of_ne_nil e he.1
    have h1 := ht b (mem_of_endsWith h b hb)
    have h2 := he.2 b hb
    omega

theorem startsWith_ascii_pat_of_high_false {u s : Bytes} (hu : ∀ b ∈ u, 128 ≤ b)
    (hs : asciiBytes s) (hs1 : s ≠ []) : startsWith u s = false := by
  cases h : startsWith u s with
  | false => rfl
  | true =>
    exfalso
    obtain ⟨b, hb⟩ := List.exists_mem_of_ne_nil s hs1
    have h1 := hu b (mem_of_startsWith h b hb)
    have h2 := hs b hb
    omega

theorem asciiBytes_take {l : Bytes} (n : Nat) (h : asciiBytes l) :
    asciiBytes (l.take n) :=
  fun b hb => h b (List.take_subset n l hb)

theorem asciiBytes_drop {l : Bytes} (n : Nat) (h : asciiBytes l) :
    asciiBytes (l.drop n) :=
  fun b hb => h b (List.drop_subset n l hb)

theorem asciiBytes_append {a b : Bytes} (ha : asciiBytes a) (hb : asciiBytes b) :
    asciiBytes (a ++ b) := by
  intro x hx
  rcases List.mem_append.mp hx with h | h
  · exact ha x h
  · exact hb x h

theorem asciiBytes_replaceFirst {s : Bytes} (old : Bytes) (hs : asciiBytes s) :
    asciiBytes (replaceFirst s old) := by
  unfold replaceFirst
  split
  · exact hs
  · split
    · exact asciiBytes_append (asciiBytes_take _ hs) (asciiBytes_drop _ hs)
    · exact hs

theorem getLast?_drop_eq {α : Type} {l : List α} {n : Nat} (h : l.drop n ≠ []) :
    (l.drop n).getLast? = l.getLast? := by
  conv_rhs => rw [← List.take_append_drop n l]
  rw [List.getLast?_append]
  rw [List.getLast?_eq_getLast (l.drop n) h]
  rfl

theorem firstIdx_none_of_high {s : Bytes} (hs : asciiBytes s) (hs1 : s ≠ []) :
    ∀ {u : Bytes}, (∀ b ∈ u, 128 ≤ b) → firstIdx u s = none := by
  intro u
  induction u with
  | nil =>
    intro _
    unfold firstIdx
    split
    · next hsw =>
      exfalso
      have := startsWith_length_le hsw
      simp at this
      exact hs1 this
    · rfl
  | cons b t ih =>
    intro hu
    unfold firstIdx
    rw [startsWith_ascii_pat_of_high_false hu hs hs1,
      ih (fun x hx => hu x (List.mem_cons_of_mem b hx))]
    rfl

theorem startsWith_append_high {tw s e : Bytes} (hs : asciiBytes s)
    (he : highBytes e) : startsWith (tw ++ e) s = startsWith tw s := by
  by_cases hle : s.length ≤ tw.length
  · unfold startsWith
    rw [List.take_append_of_le_length hle]
  · have hrhs : startsWith tw s = false := by
      cases h : startsWith tw s with
      | false => rfl
      | true => exact absurd (startsWith_length_le h) hle
    have hlhs : startsWith (tw ++ e) s = false := by
      cases h : startsWith (tw ++ e) s with
      | false => rfl
      | true =>
        exfalso
        rw [startsWith_eq_true_iff, List.take_append_eq_append_take,
          List.take_of_length_le (by omega)] at h
        cases e with
        | nil => exact he.1 rfl
        | cons c e2 =>
          have hk : s.length - tw.length = (s.length - tw.length - 1) + 1 := by omega
          rw [hk, List.take_succ_cons] at h
          have hc : c ∈ s := by
            rw [← h]
            exact List.mem_append_right _ (List.mem_cons_self _ _)
          have h1 := hs c hc
          have h2 := he.2 c (List.mem_cons_self c e2)
          omega
    rw [hlhs, hrhs]

theorem endsWith_append_high {tw s e : Bytes} (hs : asciiBytes s)
    (he : highBytes e) : endsWith (tw ++ e) s = s.isEmpty := by
  cases hs0 : s with
  | nil => simp [endsWith_nil_pat]
  | cons c0 s2 =>
    have hs1 : s ≠ [] := by rw [hs0]; exact List.cons_ne_nil c0 s2
    rw [← hs0]
    have : s.isEmpty = false := by rw [hs0]; rfl
    rw [this]
    cases h : endsWith (tw ++ e) s with
    | false => rfl
    | true =>
      exfalso
      rw [endsWith_eq_true_iff] at h
      have hdne : (tw ++ e).drop ((tw ++ e).length - s.length) ≠ [] := by
        rw [h]; exact hs1
      have h1 : s.getLast? = (tw ++ e).getLast? := by
        rw [← h]
        exact getLast?_drop_eq hdne
      rw [List.getLast?_append, List.getLast?_eq_getLast e he.1] at h1
      have h2 : s.getLast? = some (e.getLast he.1) := by
        rw [h1]; rfl
      have h3 := List.mem_of_getLast?_eq_some h2
      have h4 := List.getLast_mem he.1
      have h5 := hs _ h3
      have h6 := he.2 _ h4
      omega

theorem startsWith_cons_of_high_false {b : Nat} {rest e : Bytes} (hb : b < 128)
    (he : highBytes e) : startsWith (b :: rest) e = false := by
  cases h : startsWith (b :: rest) e with
  | false => rfl
  | true =>
    exfalso
    rw [startsWith_eq_true_iff] at h
    cases e with
    | nil => exact he.1 rfl
    | cons c e2 =>
      rw [List.length_cons, List.take_succ_cons] at h
      have hbc : b = c := (List.cons.injEq _ _ _ _ ▸ h).1
      have := he.2 c (List.mem_cons_self c e2)
      omega

theorem firstIdx_append_self_high {tw e : Bytes} (htw : asciiBytes tw)
    (he : highBytes e) : firstIdx (tw ++ e) e = some tw.length := by
  induction tw with
  | nil =>
    simp only [List.nil_append, List.length_nil]
    cases e with
    | nil => exact absurd rfl he.1
    | cons c e2 =>
      unfold firstIdx
      rw [startsWith_self]
      rfl
  | cons b t ih =>
    have hb := htw b (List.mem_cons_self b t)
    have hih := ih (fun x hx => htw x (List.mem_cons_of_mem b hx))
    rw [List.cons_append]
    unfold firstIdx
    rw [startsWith_cons_of_high_false hb he, hih]
    rfl

theorem firstIdx_append_high {s e : Bytes} (hs : asciiBytes s) (hs1 : s ≠ [])
    (he : highBytes e) : ∀ tw : Bytes, firstIdx (tw ++ e) s = firstIdx tw s := by
  intro tw
  induction tw with
  | nil =>
    simp only [List.nil_append]
    rw [firstIdx_none_of_high hs hs1 he.2]
    unfold firstIdx
    have : startsWith [] s = false := by
      cases h : startsWith [] s with
      | false => rfl
      | true =>
        exfalso
        have := startsWith_length_le h
        simp at this
        exact hs1 this
    rw [this]
    rfl
  | cons b t ih =>
    rw [List.cons_append]
    unfold firstIdx
    rw [show startsWith (b :: (t ++ e)) s = startsWith (b :: t) s from ?_, ih]
    exact @startsWith_append_high (b :: t) s e hs he

theorem replaceFirst_append_high {tw s e : Bytes} (hs : asciiBytes s)
    (he : highBytes e) : replaceFirst (tw ++ e) s = replaceFirst tw s ++ e := by
  by_cases hs0 : s = []
  · subst hs0
    unfold replaceFirst
    simp
  · unfold replaceFirst
    rw [if_neg hs0, if_neg hs0, firstIdx_append_high hs hs0 he]
    cases h : firstIdx tw s with
    | none => rfl
    | some i =>
      have hb := firstIdx_add_le h
      show List.take i (tw ++ e) ++ List.drop (i + s.length) (tw ++ e) =
        (List.take i tw ++ List.drop (i + s.length) tw) ++ e
      rw [List.take_append_of_le_length (by omega), List.drop_append_of_le_length hb]
      exact (List.append_assoc _ _ _).symm

theorem splitFirst_append_high {tw e : Bytes} (htw : asciiBytes tw)
    (he : highBytes e) : splitFirst (tw ++ e) e = tw := by
  unfold splitFirst
  rw [firstIdx_append_self_high htw he]
  exact List.take_left tw e

/-- Soundness facts about a single computed candidate: it comes from a
non-inert pair, its indices are in bounds, and its value is the window
slice between them. -/
theorem candidateFor_sound {data : Bytes} {del : Delimiter} {e : earlyDelimiter}
    (h : candidateFor data del = .ok (some e)) :
    e.delimiter = del ∧ del.Start ≠ [] ∧ del.End ≠ [] ∧
      1 ≤ e.startIndex ∧ e.startIndex ≤ e.endIndex ∧ e.endIndex ≤ data.length ∧
      e.value = (data.take e.endIndex).drop e.startIndex := by
  unfold candidateFor at h
  split at h
  · cases h
  · next hnontriv =>
    push_neg at hnontriv
    split at h
    · cases h
    · next fr hfr =>
      split at h
      · cases h
      · next toIdx hto =>
        dsimp only at h
        split at h
        · next hbound =>
          simp only [Except.ok.injEq, Option.some.injEq] at h
          subst h
          refine ⟨rfl, ?_, ?_, ?_, ?_, ?_, rfl⟩
          · intro hnil
            rw [hnil] at hnontriv
            simp at hnontriv
          · intro hnil
            rw [hnil] at hnontriv
            simp at hnontriv
          · show 1 ≤ fr + del.Start.length
            omega
          · show fr + del.Start.length ≤ Int.toNat _
            omega
          · show Int.toNat _ ≤ data.length
            omega
        · cases h

/-- Soundness of the candidate list: every collected candidate is sound for
its pair, and the pair is one of the configured delimiters. -/
theorem earlyDelimitersFor_sound {data : Bytes} :
    ∀ {delims : List Delimiter} {l : List earlyDelimiter},
      earlyDelimitersFor data delims = .ok l → ∀ e ∈ l,
        e.delimiter ∈ delims ∧ e.delimiter.Start ≠ [] ∧ e.delimiter.End ≠ [] ∧
          1 ≤ e.startIndex ∧ e.startIndex ≤ e.endIndex ∧ e.endIndex ≤ data.length ∧
          e.value = (data.take e.endIndex).drop e.startIndex := by
  intro delims
  induction delims with
  | nil =>
    intro l h e he
    unfold earlyDelimitersFor at h
    cases h
    cases he
  | cons d ds ih =>
    intro l h e he
    unfold earlyDelimitersFor at h
    split at h
    · cases h
    · next c hc =>
      split at h
      · cases h
      · next cs hcs =>
        split at h
        · next e0 =>
          cases h
          rcases List.mem_cons.mp he with he0 | hemem
          · subst he0
            obtain ⟨h1, h2, h3, h4, h5, h6, h7⟩ := candidateFor_sound hc
            exact ⟨by rw [h1]; exact List.mem_cons_self d ds, by rwa [h1], by rwa [h1],
              h4, h5, h6, h7⟩
          · obtain ⟨h1, hrest⟩ := ih hcs e hemem
            exact ⟨List.mem_cons_of_mem d h1, hrest⟩
        · cases h
          obtain ⟨h1, hrest⟩ := ih hcs e he
          exact ⟨List.mem_cons_of_mem d h1, hrest⟩

/-- The `closerDelimiter` fold (redel.go lines 143-147) returns the first
candidate attaining the minimal `startIndex`. -/
theorem foldl_min_spec :
    ∀ (l : List earlyDelimiter) (a r : earlyDelimiter),
      l.foldl (fun acc d => if d.startIndex < acc.startIndex then d else acc) a = r →
      (r = a ∧ ∀ x ∈ l, a.startIndex ≤ x.startIndex) ∨
      (∃ l1 l2, l = l1 ++ r :: l2 ∧ r.startIndex < a.startIndex ∧
        (∀ x ∈ l1, r.startIndex < x.startIndex) ∧
        (∀ x ∈ l2, r.startIndex ≤ x.startIndex)) := by
  intro l
  induction l with
  | nil =>
    intro a r h
    simp only [List.foldl_nil] at h
    left
    exact ⟨h.symm, by intro x hx; cases hx⟩
  | cons b t ih =>
    intro a r h
    simp only [List.foldl_cons] at h
    by_cases hlt : b.startIndex < a.startIndex
    · rw [if_pos hlt] at h
      rcases ih b r h with ⟨hra, hall⟩ | ⟨t1, t2, hsplit, hlt2, h1, h2⟩
      · subst hra
        right
        exact ⟨[], t, rfl, hlt, fun x hx => absurd hx (List.not_mem_nil x), hall⟩
      · right
        refine ⟨b :: t1, t2, by simp [hsplit], by omega, ?_, h2⟩
        intro x hx
        rcases List.mem_cons.mp hx with hx0 | hx1
        · subst hx0; omega
        · exact h1 x hx1
    · rw [if_neg hlt] at h
      rcases ih a r h with ⟨hra, hall⟩ | ⟨t1, t2, hsplit, hlt2, h1, h2⟩
      · subst hra
        left
        refine ⟨rfl, ?_⟩
        intro x hx
        rcases List.mem_cons.mp hx with hx0 | hx1
        · subst hx0; omega
        · exact hall x hx1
      · right
        refine ⟨b :: t1, t2, by simp [hsplit], hlt2, ?_, h2⟩
        intro x hx
        rcases List.mem_cons.mp hx with hx0 | hx1
        · subst hx0; omega
        · exact h1 x hx1

/-- The selected closer delimiter is the first candidate of minimal
`startIndex`: candidates before it are strictly larger, candidates after it
are at least as large. -/
theorem selectCloser_spec {cands : List earlyDelimiter} {w : earlyDelimiter}
    (h : selectCloser cands = some w) :
    ∃ l1 l2, cands = l1 ++ w :: l2 ∧ (∀ x ∈ l1, w.startIndex < x.startIndex) ∧
      (∀ x ∈ l2, w.startIndex ≤ x.startIndex) := by
  unfold selectCloser at h
  split at h
  · cases h
  · next c rest =>
    simp only [Option.some.injEq] at h
    rcases foldl_min_spec rest c w h with ⟨hrc, hall⟩ | ⟨t1, t2, hsplit, hlt, h1, h2⟩
    · subst hrc
      exact ⟨[], rest, rfl, fun x hx => absurd hx (List.not_mem_nil x), hall⟩
    · refine ⟨c :: t1, t2, by simp [hsplit], ?_, h2⟩
      intro x hx
      rcases List.mem_cons.mp hx with hx0 | hx1
      · subst hx0; omega
      · exact h1 x hx1

/-- The selected closer delimiter is one of the candidates. -/
theorem selectCloser_mem {cands : List earlyDelimiter} {w : earlyDelimiter}
    (h : selectCloser cands = some w) : w ∈ cands := by
  obtain ⟨l1, l2, hsplit, -, -⟩ := selectCloser_spec h
  rw [hsplit]
  exact List.mem_append_right l1 (List.mem_cons_self w l2)

/-- Both tokens of a delimiter pair are ASCII. -/
def asciiDelimiter (d : Delimiter) : Prop := asciiBytes d.Start ∧ asciiBytes d.End

/-- All configured delimiter pairs are ASCII. -/
def asciiDelimiters (delims : List Delimiter) : Prop := ∀ d ∈ delims, asciiDelimiter d

/-- Engine-state invariant: the previous delimiter and all recorded
delimiters are ASCII. -/
def stateOK (st : EngineState) : Prop :=
  asciiDelimiter st.previousDelimiter ∧ ∀ rd ∈ st.valuesData, asciiDelimiter rd.delimiter

theorem asciiDelimiter_zero : asciiDelimiter zeroDelimiter :=
  ⟨fun b hb => absurd hb (List.not_mem_nil b), fun b hb => absurd hb (List.not_mem_nil b)⟩

/-- What the strip block does to a token that ends in a high-byte EOF token:
the same computation with the EOF token invisible.  Step 1's suffix check
sees only the EOF token (so it fires only for an empty start token, which
strips nothing), and step 2.2's check likewise strips nothing. -/
def stripTailCore (delimiterData : Delimiter) (hasStartPrev : Bool)
    (previousDelimiter : Delimiter) (tw : Bytes) : Bytes × Bool × Delimiter :=
  let s1 :=
    if ¬ hasStartPrev ∧ delimiterData.Start = [] then (tw, true, delimiterData)
    else (tw, hasStartPrev, previousDelimiter)
  if s1.2.1 then
    if startsWith s1.1 s1.2.2.End then
      (replaceFirst s1.1 s1.2.2.End, s1.2.1, delimiterData)
    else (s1.1, s1.2.1, s1.2.2)
  else s1

theorem replaceFirst_nil_pat (x : Bytes) : replaceFirst x [] = x := by
  unfold replaceFirst
  rw [if_pos rfl]

theorem isEmpty_false_of_ne_nil {s : Bytes} (hs : s ≠ []) : s.isEmpty = false := by
  cases s with
  | nil => exact absurd rfl hs
  | cons a t => rfl

theorem stripTailCore_ascii {D prev : Delimiter} {hs0 : Bool} {tw : Bytes}
    (htw : asciiBytes tw) :
    asciiBytes (stripTailCore D hs0 prev tw).1 := by
  unfold stripTailCore
  dsimp only
  split_ifs <;>
    first
      | exact htw
      | exact asciiBytes_replaceFirst _ htw

/-- On a token of the form `tw ++ e` with `tw` ASCII, ASCII delimiters and a
high-byte `e`, the strip block acts on `tw` alone and carries `e` along. -/
theorem stripDelimiters_append_high {D prev : Delimiter} {hs0 : Bool} {tw e : Bytes}
    (hD : asciiDelimiter D) (hprev : asciiDelimiter prev)
    (he : highBytes e) :
    stripDelimiters D hs0 prev (tw ++ e) =
      ((stripTailCore D hs0 prev tw).1 ++ e, (stripTailCore D hs0 prev tw).2) := by
  unfold stripDelimiters stripTailCore
  by_cases hds : D.Start = [] <;> by_cases hhs : hs0 = true <;>
    by_cases h21d : startsWith tw D.End = true <;>
    by_cases h21p : startsWith tw prev.End = true <;>
    simp [hds, hhs, h21d, h21p, endsWith_nil_pat, replaceFirst_nil_pat,
      endsWith_append_high hD.1 he, startsWith_append_high hD.2 he,
      startsWith_append_high hprev.2 he, replaceFirst_append_high hD.2 he,
      replaceFirst_append_high hprev.2 he, isEmpty_false_of_ne_nil]

/-- The updated previous delimiter after stripping is either the current
`delimiterData` or the old previous delimiter. -/
theorem stripDelimiters_prev_cases (D : Delimiter) (hs0 : Bool) (prev : Delimiter)
    (x : Bytes) :
    (stripDelimiters D hs0 prev x).2.2 = D ∨ (stripDelimiters D hs0 prev x).2.2 = prev := by
  unfold stripDelimiters
  dsimp only
  split_ifs <;> simp

/-- The `delimiterData` of an engine iteration (the delimiter of the last
recorded value, or the zero delimiter). -/
theorem delimiterData_ok {vd : List replacementData}
    (h : ∀ rd ∈ vd, asciiDelimiter rd.delimiter) :
    asciiDelimiter (match vd.getLast? with
      | some rdta => rdta.delimiter
      | none => zeroDelimiter) := by
  cases hl : vd.getLast? with
  | none => exact asciiDelimiter_zero
  | some rd => exact h rd (List.mem_of_getLast?_eq_some hl)

/-- An engine step on an all-ASCII token produces the same result for any
high-byte EOF token: the token cannot end in the EOF token, and nothing
else consults it. -/
theorem engineStep_ascii_token {f : Bytes → Bytes} {p rw : Bool} {repl : Bytes}
    {eof1 eof2 : Bytes} {st : EngineState} {item : ScanItem}
    (ht : asciiBytes item.token) (he1 : highBytes eof1) (he2 : highBytes eof2) :
    engineStep f p rw repl eof1 st item = engineStep f p rw repl eof2 st item := by
  unfold engineStep
  dsimp only
  rw [endsWith_high_pat_false ht he1, endsWith_high_pat_false ht he2]
  simp

/-- An engine step on a tail token `tw ++ eof` (with `tw` ASCII, an ASCII
state and a high-byte EOF token) produces the same result for any such EOF
token. -/
theorem engineStep_tail_token {f : Bytes → Bytes} {p rw : Bool} {repl : Bytes}
    {eof1 eof2 : Bytes} {st : EngineState} {tw : Bytes}
    (htw : asciiBytes tw) (hst : stateOK st) (he1 : highBytes eof1)
    (he2 : highBytes eof2) :
    engineStep f p rw repl eof1 st ⟨tw ++ eof1, none⟩ =
      engineStep f p rw repl eof2 st ⟨tw ++ eof2, none⟩ := by
  have hD := delimiterData_ok hst.2
  unfold engineStep
  dsimp only
  rw [endsWith_append_self tw eof1, endsWith_append_self tw eof2]
  by_cases hp : p = true
  · rw [if_pos hp, if_pos hp]
    simp only [if_pos rfl]
    rw [splitFirst_append_high htw he1, splitFirst_append_high htw he2]
    simp
  · rw [if_neg hp, if_neg hp]
    rw [stripDelimiters_append_high hD hst.1 he1,
      stripDelimiters_append_high hD hst.1 he2]
    simp only [if_pos rfl]
    rw [splitFirst_append_high (stripTailCore_ascii htw) he1,
      splitFirst_append_high (stripTailCore_ascii htw) he2]
    simp

/-- The engine step preserves the ASCII-state invariant, provided any newly
recorded delimiter is ASCII. -/
theorem engineStep_stateOK {f : Bytes → Bytes} {p rw : Bool} {repl eof : Bytes}
    {st : EngineState} {item : ScanItem} (hst : stateOK st)
    (hrec : ∀ rd : replacementData, item.recorded = some rd → asciiDelimiter rd.delimiter) :
    stateOK (engineStep f p rw repl eof st item).1 := by
  have hvd : ∀ rd ∈ (match item.recorded with
      | some rdta => st.valuesData ++ [rdta]
      | none => st.valuesData), asciiDelimiter rd.delimiter := by
    cases hi : item.recorded with
    | none => exact hst.2
    | some rd0 =>
      intro rd hrd
      rcases List.mem_append.mp hrd with h | h
      · exact hst.2 rd h
      · rw [List.mem_singleton.mp h]
        exact hrec rd0 hi
  have hD := delimiterData_ok hvd
  unfold engineStep
  dsimp only
  constructor
  · -- the new previous delimiter
    dsimp only [EngineState.previousDelimiter]
    split
    · exact hst.1
    · rcases stripDelimiters_prev_cases _ st.hasStartPrevDelimiter st.previousDelimiter
        item.token with h | h
      · rw [h]; exact hD
      · rw [h]; exact hst.1
  · exact hvd

/-- Running the scanner over `data` with the given fuel, then the engine
loop from state `st` over the produced tokens (proof infrastructure fusing
`scanTokensF` and `engineGo`). -/
def runScan (delims : List Delimiter) (eof : Bytes) (f : Bytes → Bytes)
    (p rw : Bool) (repl : Bytes) (fuel : Nat) (st : EngineState) (data : Bytes) :
    Except Unit (List (Bytes × Bool) × List Bytes) :=
  match scanTokensF delims eof fuel data with
  | .error e => .error e
  | .ok items => .ok (engineGo f p rw repl eof st items)

theorem runScan_zero (delims : List Delimiter) (eof : Bytes) (f : Bytes → Bytes)
    (p rw : Bool) (repl : Bytes) (st : EngineState) (data : Bytes) :
    runScan delims eof f p rw repl 0 st data = .error () := rfl

theorem runScan_succ (delims : List Delimiter) (eof : Bytes) (f : Bytes → Bytes)
    (p rw : Bool) (repl : Bytes) (fuel : Nat) (st : EngineState) (data : Bytes) :
    runScan delims eof f p rw repl (fuel + 1) st data =
      match ScanByDelimiters delims eof data with
      | .error e => .error e
      | .ok .stop => .ok ([], [])
      | .ok (.tok advance token recorded) =>
        if 0 < advance ∧ advance ≤ data.length then
          match runScan delims eof f p rw repl fuel
              (engineStep f p rw repl eof st ⟨token, recorded⟩).1 (data.drop advance) with
          | .error e => .error e
          | .ok pr =>
            .ok ((engineStep f p rw repl eof st ⟨token, recorded⟩).2.1 :: pr.1,
              (engineStep f p rw repl eof st ⟨token, recorded⟩).2.2 ++ pr.2)
        else .error () := by
  unfold runScan
  rw [scanTokensF]
  cases hS : ScanByDelimiters delims eof data with
  | error e => rfl
  | ok so =>
    cases so with
    | stop => rfl
    | tok advance token recorded =>
      dsimp only
      by_cases hadv : 0 < advance ∧ advance ≤ data.length
      · rw [if_pos hadv, if_pos hadv]
        cases hrec : scanTokensF delims eof fuel (data.drop advance) with
        | error e => rfl
        | ok rest => rfl
      · rw [if_neg hadv, if_neg hadv]

theorem replaceFilterFunc_eq_runScan (delims : List Delimiter) (eof : Bytes)
    (f : Bytes → Bytes) (p rw : Bool) (repl input : Bytes) :
    replaceFilterFunc delims eof f p rw repl input =
      runScan delims eof f p rw repl (input.length + 1) initState input := rfl

theorem initState_OK : stateOK initState :=
  ⟨asciiDelimiter_zero, fun rd hrd => absurd hrd (List.not_mem_nil rd)⟩

/-- Core determinism result: over ASCII input and ASCII delimiters, the run
is independent of the choice of the (high-byte) EOF token. -/
theorem runScan_high_eof_eq {delims : List Delimiter} {f : Bytes → Bytes}
    {p rw : Bool} {repl : Bytes} (hdel : asciiDelimiters delims)
    {eof1 eof2 : Bytes} (he1 : highBytes eof1) (he2 : highBytes eof2) :
    ∀ (fuel : Nat) (data : Bytes) (st : EngineState), asciiBytes data → stateOK st →
      runScan delims eof1 f p rw repl fuel st data =
        runScan delims eof2 f p rw repl fuel st data := by
  intro fuel
  induction fuel with
  | zero =>
    intro data st _ _
    rw [runScan_zero, runScan_zero]
  | succ fuel ih =>
    intro data st hdata hst
    rw [runScan_succ, runScan_succ]
    by_cases hlen : data.length = 0
    · unfold ScanByDelimiters
      rw [if_pos hlen, if_pos hlen]
    · unfold ScanByDelimiters
      rw [if_neg hlen, if_neg hlen]
      cases hE : earlyDelimitersFor data delims with
      | error e => rfl
      | ok cands =>
        cases hW : selectCloser cands with
        | some closer =>
          dsimp only
          rw [hW]
          dsimp only
          have htok : asciiBytes (data.take closer.startIndex) :=
            asciiBytes_take _ hdata
          have hsound := earlyDelimitersFor_sound hE closer (selectCloser_mem hW)
          have hcd : asciiDelimiter closer.delimiter := hdel _ hsound.1
          have hES := @engineStep_ascii_token f p rw repl eof1 eof2 st
            ⟨data.take closer.startIndex,
              if 0 < closer.value.length then some ⟨closer.delimiter, closer.value⟩
              else none⟩ htok he1 he2
          have hrec : ∀ rd : replacementData,
              (if 0 < closer.value.length then
                some (⟨closer.delimiter, closer.value⟩ : replacementData)
              else none) = some rd → asciiDelimiter rd.delimiter := by
            intro rd h
            split at h
            · cases h
              exact hcd
            · cases h
          by_cases hadv : 0 < closer.endIndex ∧ closer.endIndex ≤ data.length
          · rw [if_pos hadv, if_pos hadv, hES,
              ih (data.drop closer.endIndex)
                ((engineStep f p rw repl eof2 st
                  ⟨data.take closer.startIndex,
                    if 0 < closer.value.length then
                      some ⟨closer.delimiter, closer.value⟩
                    else none⟩).1)
                (asciiBytes_drop _ hdata)
                (engineStep_stateOK hst hrec)]
          · rw [if_neg hadv, if_neg hadv]
        | none =>
          dsimp only
          rw [hW]
          dsimp only
          have hES := @engineStep_tail_token f p rw repl eof1 eof2 st data
            hdata hst he1 he2
          have hrec : ∀ rd : replacementData,
              (none : Option replacementData) = some rd → asciiDelimiter rd.delimiter :=
            fun rd h => by cases h
          by_cases hadv : 0 < data.length ∧ data.length ≤ data.length
          · rw [if_pos hadv, if_pos hadv, hES,
              ih (data.drop data.length)
                ((engineStep f p rw repl eof2 st ⟨data ++ eof2, none⟩).1)
                (asciiBytes_drop _ hdata)
                (engineStep_stateOK hst hrec)]
          · rw [if_neg hadv, if_neg hadv]

/-- Determinism of `replaceFilterFunc` in the EOF token, over ASCII input
and delimiters. -/
theorem replaceFilterFunc_high_eof_eq {delims : List Delimiter} {f : Bytes → Bytes}
    {p rw : Bool} {repl : Bytes} {input : Bytes} (hdel : asciiDelimiters delims)
    (hin : asciiBytes input) {eof1 eof2 : Bytes} (he1 : highBytes eof1)
    (he2 : highBytes eof2) :
    replaceFilterFunc delims eof1 f p rw repl input =
      replaceFilterFunc delims eof2 f p rw repl input := by
  rw [replaceFilterFunc_eq_runScan, replaceFilterFunc_eq_runScan]
  exact runScan_high_eof_eq hdel he1 he2 _ input initState hin initState_OK

/-- The decision actually appended for a matched value under the engine's
policy parameters: the transform result when `replaceWith` is set (the
`ReplaceFilterWith` route), otherwise the original value when the filter
returns empty bytes, and the fixed replacement when it does not
(redel.go lines 233-245). -/
def decideOf (f : Bytes → Bytes) (rw : Bool) (repl : Bytes) : Bytes → Bytes :=
  fun v => if rw then f v else if (f v).length = 0 then v else repl

/-- Direct spec-side reconstruction for `preserveDelimiters = true`, written
from the spec's words: the output is the input in which each matched
region's captured value is replaced by the policy's decision bytes, while
every other byte -- in particular each start and end delimiter token -- is
kept byte-for-byte.  (`data.take closer.startIndex` ends with the start
token, and the recursion resumes at `closer.endIndex`, where the end token
still stands.)  Used as the right-hand side of the refinement theorem for
the preserve-delimiters claim. -/
def specPreservedOutput (delims : List Delimiter) (decideFn : Bytes → Bytes) :
    Nat → Bytes → Except Unit Bytes
  | 0, _ => .error ()
  | fuel + 1, data =>
    if data.length = 0 then .ok []
    else
      match earlyDelimitersFor data delims with
      | .error e => .error e
      | .ok cands =>
        match selectCloser cands with
        | some closer =>
          if 0 < closer.endIndex ∧ closer.endIndex ≤ data.length then
            match specPreservedOutput delims decideFn fuel (data.drop closer.endIndex) with
            | .error e => .error e
            | .ok rest => .ok (data.take closer.startIndex ++ decideFn closer.value ++ rest)
          else .error ()
        | none => .ok data

theorem scanTokensF_nil_ok {delims : List Delimiter} {eof : Bytes} {fuel : Nat}
    {rest : List ScanItem} (h : scanTokensF delims eof fuel [] = .ok rest) :
    rest = [] := by
  cases fuel with
  | zero => cases h
  | succ n =>
    rw [scanTokensF] at h
    unfold ScanByDelimiters at h
    simp only [List.length_nil, if_pos rfl] at h
    cases h
    rfl

/-- An engine step in preserve mode on a recorded match token: the emitted
chunk is the token followed by the policy decision for the recorded value,
the `atEOF` flag is false, and the filter is invoked on the recorded
value. -/
theorem engineStep_preserve_match {f : Bytes → Bytes} {rw : Bool}
    {repl eof : Bytes} {st : EngineState} {tok : Bytes} {rd : replacementData}
    (hatEOF : endsWith tok eof = false) :
    engineStep f true rw repl eof st ⟨tok, some rd⟩ =
      (⟨st.valuesData ++ [rd], st.hasStartPrevDelimiter, st.previousDelimiter⟩,
        (tok ++ decideOf f rw repl rd.value, false), [rd.value]) := by
  unfold engineStep decideOf
  dsimp only
  rw [List.getLast?_concat, hatEOF]
  simp only [Bool.false_eq_true, if_false, if_true, if_pos rfl]
  split_ifs <;> simp

/-- An engine step in preserve mode on the tail token `tw ++ eof`: the
emitted chunk is `tw` with the `atEOF` flag set. -/
theorem engineStep_preserve_tail {f : Bytes → Bytes} {rw : Bool}
    {repl eof : Bytes} {st : EngineState} {tw : Bytes}
    (htw : asciiBytes tw) (he : highBytes eof) :
    (engineStep f true rw repl eof st ⟨tw ++ eof, none⟩).2.1 = (tw, true) := by
  unfold engineStep
  dsimp only
  rw [endsWith_append_self]
  simp [splitFirst_append_high htw he]

/-- Core refinement for `preserveDelimiters = true`: provided every match
step records a (necessarily non-empty) value, the concatenation of the
chunks emitted by the engine loop equals the direct spec-side
reconstruction `specPreservedOutput`. -/
theorem preserve_refines {delims : List Delimiter} {f : Bytes → Bytes} {rw : Bool}
    {repl eof : Bytes} (he : highBytes eof) :
    ∀ (fuel : Nat) (data : Bytes) (st : EngineState), asciiBytes data →
      ∀ items, scanTokensF delims eof fuel data = .ok items →
        (∀ it ∈ items, it.recorded.isSome = true ∨ endsWith it.token eof = true) →
        specPreservedOutput delims (decideOf f rw repl) fuel data =
          .ok (concatChunks (engineGo f true rw repl eof st items).1) := by
  intro fuel
  induction fuel with
  | zero =>
    intro data st _ items hscan _
    cases hscan
  | succ fuel ih =>
    intro data st hdata items hscan hmix
    rw [scanTokensF] at hscan
    unfold ScanByDelimiters at hscan
    by_cases hlen : data.length = 0
    · rw [if_pos hlen] at hscan
      cases hscan
      unfold specPreservedOutput
      rw [if_pos hlen]
      rfl
    · rw [if_neg hlen] at hscan
      unfold specPreservedOutput
      rw [if_neg hlen]
      cases hE : earlyDelimitersFor data delims with
      | error e =>
        rw [hE] at hscan
        cases hscan
      | ok cands =>
        rw [hE] at hscan
        dsimp only at hscan
        dsimp only
        cases hW : selectCloser cands with
        | some closer =>
          rw [hW] at hscan
          dsimp only at hscan
          dsimp only
          by_cases hadv : 0 < closer.endIndex ∧ closer.endIndex ≤ data.length
          · rw [if_pos hadv] at hscan
            rw [if_pos hadv]
            cases hrec2 : scanTokensF delims eof fuel (data.drop closer.endIndex) with
            | error e =>
              rw [hrec2] at hscan
              cases hscan
            | ok rest =>
              rw [hrec2] at hscan
              cases hscan
              have htokeof : endsWith (data.take closer.startIndex) eof = false :=
                endsWith_high_pat_false (asciiBytes_take _ hdata) he
              have hhead := hmix _ (List.mem_cons_self _ rest)
              by_cases hval : 0 < closer.value.length
              · have hrecsome :
                    (if 0 < closer.value.length then
                      some (⟨closer.delimiter, closer.value⟩ : replacementData)
                    else none) = some ⟨closer.delimiter, closer.value⟩ := if_pos hval
                rw [ih (data.drop closer.endIndex)
                    ((engineStep f true rw repl eof st
                      ⟨data.take closer.startIndex,
                        if 0 < closer.value.length then
                          some ⟨closer.delimiter, closer.value⟩
                        else none⟩).1)
                    (asciiBytes_drop _ hdata) rest hrec2
                    (fun it hit => hmix it (List.mem_cons_of_mem _ hit))]
                rw [hrecsome, engineGo_cons, engineStep_preserve_match htokeof]
                unfold concatChunks
                rw [List.foldr_cons, List.append_assoc]
                dsimp only
                rw [List.append_assoc]
              · exfalso
                have hrecnone :
                    (if 0 < closer.value.length then
                      some (⟨closer.delimiter, closer.value⟩ : replacementData)
                    else none) = none := if_neg hval
                rcases hhead with hsome | heof
                · rw [hrecnone] at hsome
                  cases hsome
                · rw [htokeof] at heof
                  cases heof
          · rw [if_neg hadv] at hscan
            cases hscan
        | none =>
          rw [hW] at hscan
          dsimp only at hscan
          dsimp only
          have hadv : 0 < data.length ∧ data.length ≤ data.length :=
            ⟨Nat.pos_of_ne_zero hlen, Nat.le_refl _⟩
          rw [if_pos hadv] at hscan
          cases hrec2 : scanTokensF delims eof fuel (data.drop data.length) with
          | error e =>
            rw [hrec2] at hscan
            cases hscan
          | ok rest =>
            rw [hrec2] at hscan
            cases hscan
            have hrest : rest = [] := by
              rw [List.drop_length] at hrec2
              exact scanTokensF_nil_ok hrec2
            subst hrest
            rw [engineGo_cons, engineGo_nil]
            unfold concatChunks
            rw [engineStep_preserve_tail hdata he]
            simp

theorem engineStep_valuesData (f : Bytes → Bytes) (p rw : Bool) (repl eof : Bytes)
    (st : EngineState) (item : ScanItem) :
    (engineStep f p rw repl eof st item).1.valuesData =
      match item.recorded with
      | some rdta => st.valuesData ++ [rdta]
      | none => st.valuesData := rfl

theorem engineStep_calls (f : Bytes → Bytes) (p rw : Bool) (repl eof : Bytes)
    (st : EngineState) (item : ScanItem) :
    (engineStep f p rw repl eof st item).2.2 =
      match (match item.recorded with
        | some rdta => st.valuesData ++ [rdta]
        | none => st.valuesData).getLast? with
      | some rdta => [rdta.value]
      | none => [] := rfl

/-- Every value recorded by the scanner (redel.go lines 153-158) is
non-empty: the append is guarded by `len(delimiterVal) > 0`. -/
theorem scanTokensF_recorded_nonempty {delims : List Delimiter} {eof : Bytes} :
    ∀ {fuel : Nat} {data : Bytes} {items : List ScanItem},
      scanTokensF delims eof fuel data = .ok items →
      ∀ it ∈ items, ∀ rd : replacementData, it.recorded = some rd → rd.value ≠ [] := by
  intro fuel
  induction fuel with
  | zero =>
    intro data items h
    cases h
  | succ fuel ih =>
    intro data items h
    rw [scanTokensF] at h
    cases hS : ScanByDelimiters delims eof data with
    | error e =>
      rw [hS] at h
      cases h
    | ok so =>
      rw [hS] at h
      cases so with
      | stop =>
        cases h
        intro it hit
        cases hit
      | tok advance token recorded =>
        dsimp only at h
        split at h
        · cases hrec : scanTokensF delims eof fuel (data.drop advance) with
          | error e =>
            rw [hrec] at h
            cases h
          | ok rest =>
            rw [hrec] at h
            cases h
            intro it hit rd hrd
            rcases List.mem_cons.mp hit with hit0 | hit1
            · subst hit0
              dsimp only at hrd
              -- the recorded component comes from ScanByDelimiters
              unfold ScanByDelimiters at hS
              split at hS
              · cases hS
              · split at hS
                · cases hS
                · split at hS
                  · next closer hW =>
                    cases hS
                    split at hrd
                    · next hval =>
                      cases hrd
                      intro hnil
                      dsimp only at hnil
                      rw [hnil] at hval
                      simp at hval
                    · cases hrd
                  · cases hS
                    cases hrd
            · exact ih hrec it hit1 rd hrd
        · cases h

/-- Every argument ever passed to the decision callback is the value of a
recorded entry, hence non-empty when all recorded entries are. -/
theorem engineGo_trace_nonempty {f : Bytes → Bytes} {p rw : Bool} {repl eof : Bytes} :
    ∀ (items : List ScanItem) (st : EngineState),
      (∀ rd ∈ st.valuesData, rd.value ≠ []) →
      (∀ it ∈ items, ∀ rd : replacementData, it.recorded = some rd → rd.value ≠ []) →
      ∀ v ∈ (engineGo f p rw repl eof st items).2, v ≠ [] := by
  intro items
  induction items with
  | nil =>
    intro st _ _ v hv
    cases hv
  | cons item items ih =>
    intro st hst hitems v hv
    rw [engineGo_cons] at hv
    dsimp only at hv
    have hvd : ∀ rd ∈ (match item.recorded with
        | some rdta => st.valuesData ++ [rdta]
        | none => st.valuesData), rd.value ≠ [] := by
      cases hi : item.recorded with
      | none => exact hst
      | some rd0 =>
        intro rd hrd
        rcases List.mem_append.mp hrd with hmem | hmem
        · exact hst rd hmem
        · rw [List.mem_singleton.mp hmem]
          exact hitems item (List.mem_cons_self _ _) rd0 hi
    rcases List.mem_append.mp hv with hcall | htail
    · rw [engineStep_calls] at hcall
      split at hcall
      · next rd hlast =>
        rw [List.mem_singleton.mp hcall]
        exact hvd rd (List.mem_of_getLast?_eq_some hlast)
      · cases hcall
    · refine ih _ ?_ (fun it hit => hitems it (List.mem_cons_of_mem _ hit)) v htail
      rw [engineStep_valuesData]
      exact hvd

/-- The values of the recorded match steps, in order. -/
def matchVals (items : List ScanItem) : List Bytes :=
  items.filterMap (fun it => it.recorded.map (fun rd => rd.value))

/-- Shape of the callback trace: one invocation per recorded match step, in
order and with that step's value, plus one extra invocation at the final
tail step with the most recently recorded value (none if nothing was ever
recorded). -/
theorem engineGo_trace_shape {f : Bytes → Bytes} {p rw : Bool} {repl eof : Bytes} :
    ∀ (ms : List ScanItem) (t : ScanItem) (st : EngineState),
      (∀ m ∈ ms, (m.recorded).isSome = true) → t.recorded = none →
      (engineGo f p rw repl eof st (ms ++ [t])).2 =
        matchVals ms ++
          (match (st.valuesData.map (fun rd => rd.value) ++ matchVals ms).getLast? with
            | some v => [v]
            | none => []) := by
  intro ms
  induction ms with
  | nil =>
    intro t st _ ht
    rw [List.nil_append, engineGo_cons]
    dsimp only
    rw [engineGo_nil]
    dsimp only
    rw [engineStep_calls, ht]
    unfold matchVals
    simp only [List.filterMap_nil, List.append_nil, List.nil_append]
    rw [List.getLast?_map]
    cases hl : st.valuesData.getLast? with
    | none => rfl
    | some rd => rfl
  | cons m ms ih =>
    intro t st hms ht
    obtain ⟨rd0, hrd0⟩ : ∃ rd, m.recorded = some rd := by
      have := hms m (List.mem_cons_self _ _)
      cases h : m.recorded with
      | none => rw [h] at this; cases this
      | some rd => exact ⟨rd, rfl⟩
    rw [List.cons_append, engineGo_cons]
    dsimp only
    rw [engineStep_calls, hrd0]
    dsimp only
    rw [ih t _ (fun x hx => hms x (List.mem_cons_of_mem _ hx)) ht]
    rw [engineStep_valuesData, hrd0]
    have hmv : matchVals (m :: ms) = rd0.value :: matchVals ms := by
      unfold matchVals
      rw [List.filterMap_cons, hrd0]
      rfl
    rw [hmv]
    rw [List.getLast?_concat]
    dsimp only
    have harg : (st.valuesData ++ [rd0]).map (fun rd => rd.value) ++ matchVals ms =
        st.valuesData.map (fun rd => rd.value) ++ (rd0.value :: matchVals ms) := by
      rw [List.map_append]
      rw [List.append_assoc]
      rfl
    rw [harg]
    rfl

theorem scanTokensF_nil {delims : List Delimiter} {eof : Bytes} {fuel : Nat}
    (h : 0 < fuel) : scanTokensF delims eof fuel [] = .ok [] := by
  cases fuel with
  | zero => omega
  | succ n =>
    rfl

theorem stripDelimiters_zero (b : Bool) (x : Bytes) :
    (stripDelimiters zeroDelimiter b zeroDelimiter x).1 = x := by
  unfold stripDelimiters zeroDelimiter
  cases b <;>
    simp [endsWith_nil_pat, startsWith_nil_pat, replaceFirst_nil_pat]

/-- No-candidate inert pairs: a pair with an empty start or end sequence
contributes no candidate (redel.go lines 120-122). -/
theorem earlyDelimitersFor_inert {delims : List Delimiter}
    (h : ∀ d ∈ delims, d.Start = [] ∨ d.End = []) (data : Bytes) :
    earlyDelimitersFor data delims = .ok [] := by
  induction delims with
  | nil => rfl
  | cons d ds ih =>
    unfold earlyDelimitersFor
    have hcand : candidateFor data d = .ok none := by
      unfold candidateFor
      rw [if_pos ?_]
      rcases h d (List.mem_cons_self _ _) with h0 | h0 <;> rw [h0] <;> simp
    rw [hcand, ih (fun x hx => h x (List.mem_cons_of_mem _ hx))]

/-- A run over an input in which no configured pair has a complete
candidate: the scanner emits one tail token, the engine emits the whole
input as the single chunk, with the end-of-stream flag, and the decision
callback is never invoked. -/
theorem run_no_candidates {delims : List Delimiter} {f : Bytes → Bytes}
    {p rw : Bool} {repl eof input : Bytes} (hne : input ≠ [])
    (hnc : earlyDelimitersFor input delims = .ok [])
    (hsplit : splitFirst (input ++ eof) eof = input) :
    replaceFilterFunc delims eof f p rw repl input = .ok ([(input, true)], []) := by
  have hlen : input.length ≠ 0 := by
    intro h
    exact hne (List.eq_nil_of_length_eq_zero h)
  unfold replaceFilterFunc scanTokens
  rw [scanTokensF]
  unfold ScanByDelimiters
  rw [if_neg hlen, hnc]
  dsimp only
  rw [show selectCloser [] = none from rfl]
  dsimp only
  have hadv : 0 < input.length ∧ input.length ≤ input.length :=
    ⟨Nat.pos_of_ne_zero hlen, Nat.le_refl _⟩
  rw [if_pos hadv, List.drop_length, scanTokensF_nil (by omega)]
  dsimp only
  rw [engineGo_cons, engineGo_nil]
  congr 1
  unfold engineStep initState
  dsimp only
  rw [endsWith_append_self]
  simp only [List.getLast?_nil, if_pos rfl]
  by_cases hp : p = true
  · rw [if_pos hp]
    dsimp only
    rw [hsplit]
    simp
  · rw [if_neg hp]
    rw [show (stripDelimiters zeroDelimiter false zeroDelimiter (input ++ eof)).1 =
      input ++ eof from stripDelimiters_zero false (input ++ eof), hsplit]
    simp

instance (d : Delimiter) : Decidable (asciiDelimiter d) :=
  inferInstanceAs (Decidable (_ ∧ _))

instance (l : List Delimiter) : Decidable (asciiDelimiters l) :=
  inferInstanceAs (Decidable (∀ d ∈ l, asciiDelimiter d))

/-- A concrete well-behaved EOF token (seven bytes, all at least 128),
standing in for one concrete draw of the random 7-byte token. -/
def eofHigh : Bytes := [200, 201, 202, 203, 204, 205, 206]

/-- The single delimiter pair {START, END} of the C1 scenario. -/
def c1Delims : List Delimiter := [⟨[83, 84, 65, 82, 84], [69, 78, 68]⟩]

/-- "Lorem ipsum dolor START nam risus END magna START suscipit. END varius
START sapien END." as bytes. -/
def c1Input : Bytes := [76, 111, 114, 101, 109, 32, 105, 112, 115, 117, 109, 32, 100, 111, 108, 111, 114, 32, 83, 84, 65, 82, 84, 32, 110, 97, 109, 32, 114, 105, 115, 117, 115, 32, 69, 78, 68, 32, 109, 97, 103, 110, 97, 32, 83, 84, 65, 82, 84, 32, 115, 117, 115, 99, 105, 112, 105, 116, 46, 32, 69, 78, 68, 32, 118, 97, 114, 105, 117, 115, 32, 83, 84, 65, 82, 84, 32, 115, 97, 112, 105, 101, 110, 32, 69, 78, 68, 46]

/-- "REPLACEMENT" as bytes. -/
def c1Replacement : Bytes := [82, 69, 80, 76, 65, 67, 69, 77, 69, 78, 84]

/-- "Lorem ipsum dolor REPLACEMENT magna REPLACEMENT varius REPLACEMENT."
as bytes. -/
def c1Expected : Bytes := [76, 111, 114, 101, 109, 32, 105, 112, 115, 117, 109, 32, 100, 111, 108, 111, 114, 32, 82, 69, 80, 76, 65, 67, 69, 77, 69, 78, 84, 32, 109, 97, 103, 110, 97, 32, 82, 69, 80, 76, 65, 67, 69, 77, 69, 78, 84, 32, 118, 97, 114, 105, 117, 115, 32, 82, 69, 80, 76, 65, 67, 69, 77, 69, 78, 84, 46]

/-- C1: on the input "Lorem ipsum dolor START nam risus END magna START
suscipit. END varius START sapien END." with the single pair
{START, END}, fixed replacement "REPLACEMENT" and `preserveDelimiters =
false`, the `Replace` operation emits chunks whose concatenation is exactly
"Lorem ipsum dolor REPLACEMENT magna REPLACEMENT varius REPLACEMENT.".
The per-instance random EOF token is assumed well-behaved with respect to
the ASCII input: nonempty, all bytes at least 128 (`highBytes`), so that it
cannot occur in or interfere with any scanned window. -/
theorem claim_C1 (eof : Bytes) (he : highBytes eof) :
    (Replace c1Delims eof c1Replacement c1Input).map (fun r => concatChunks r.1) =
      .ok c1Expected := by
  have hd : asciiDelimiters c1Delims := by decide
  have hin : asciiBytes c1Input := by decide
  have heh : highBytes eofHigh := by decide
  unfold Replace
  rw [replaceFilterFunc_high_eof_eq hd hin he heh]
  rfl

theorem claim_C1_witness :
    highBytes eofHigh ∧
    (Replace c1Delims eofHigh c1Replacement c1Input).map (fun r => concatChunks r.1) =
      .ok c1Expected :=
  ⟨by decide, claim_C1 eofHigh (by decide)⟩

/-- C2 counterexample: on the empty input stream the scanner stops
immediately and the sink is never invoked, so it is not invoked with
`atEnd = true` exactly once, contradicting the claim's "including the empty
stream". -/
theorem claim_C2_counterexample :
    Replace [⟨[40], [41]⟩] eofHigh [82] [] = .ok ([], []) ∧
    ¬ ∃ (chunks : List (Bytes × Bool)) (trace : List Bytes),
        Replace [⟨[40], [41]⟩] eofHigh [82] [] = .ok (chunks, trace) ∧
        (chunks.filter (fun c => c.2)).length = 1 := by
  refine ⟨rfl, ?_⟩
  rintro ⟨chunks, trace, hrun, hcount⟩
  rw [show Replace [⟨[40], [41]⟩] eofHigh [82] [] =
    .ok (([] : List (Bytes × Bool)), ([] : List Bytes)) from rfl] at hrun
  cases hrun
  simp at hcount

/-- C2 amended: for every NONEMPTY input in which no configured pair has a
complete candidate, every policy (all are instances of
`replaceFilterFunc`) passes the entire input to the sink as one chunk with
`atEnd = true`, and that is the only sink invocation; the decision callback
is never invoked.  On the empty input the sink is never invoked (see the
counterexample).  The EOF-token hypothesis `hsplit` states that the
appended sentinel is recovered intact (no collision, no straddling
occurrence). -/
theorem claim_C2_amended (delims : List Delimiter) (f : Bytes → Bytes) (p rw : Bool)
    (repl eof input : Bytes) (hne : input ≠ [])
    (hnc : earlyDelimitersFor input delims = .ok [])
    (hsplit : splitFirst (input ++ eof) eof = input) :
    replaceFilterFunc delims eof f p rw repl input = .ok ([(input, true)], []) :=
  run_no_candidates hne hnc hsplit

theorem claim_C2_amended_witness :
    replaceFilterFunc [⟨[40], [41]⟩] eofHigh (fun v => v) false false [82] [97, 98] =
      .ok ([([97, 98], true)], []) :=
  claim_C2_amended [⟨[40], [41]⟩] (fun v => v) false false [82] eofHigh [97, 98]
    (by decide) rfl rfl

/-- C7: a delimiter pair with an empty start or end sequence never matches
and raises no error (the run returns `.ok`); when only such pairs are
configured, every operation delivers the entire input to the sink unchanged
as the literal tail (no chunk at all for the empty input), and the decision
callback is never invoked. -/
theorem claim_C7 (delims : List Delimiter) (f : Bytes → Bytes) (p rw : Bool)
    (repl eof input : Bytes)
    (hinert : ∀ d ∈ delims, d.Start = [] ∨ d.End = [])
    (hsplit : splitFirst (input ++ eof) eof = input) :
    replaceFilterFunc delims eof f p rw repl input =
      .ok ((if input = [] then [] else [(input, true)]), []) := by
  by_cases hne : input = []
  · subst hne
    rw [if_pos rfl]
    unfold replaceFilterFunc scanTokens
    rw [scanTokensF_nil (by omega)]
    rfl
  · rw [if_neg hne]
    exact run_no_candidates hne (earlyDelimitersFor_inert hinert input) hsplit

theorem claim_C7_witness :
    replaceFilterFunc [⟨[], [41]⟩] eofHigh (fun v => v) false false [82] [97, 98] =
      .ok ([([97, 98], true)], []) := by
  have h := claim_C7 [⟨[], [41]⟩] (fun v => v) false false [82] eofHigh [97, 98]
    (by decide) rfl
  simpa using h

/-- C10 counterexample: two runs differing only in the EOF sentinel, where
neither sentinel occurs as a substring of any scanned window (the only
window is the one-byte input, shorter than the 7-byte sentinels), yet the
emitted chunk sequences differ: the sentinel `aaaaaaa` straddles the
boundary when appended to the tail `a`, so the final split cuts too
early. -/
theorem claim_C10_counterexample :
    Replace [] [97, 97, 97, 97, 97, 97, 97] [82] [97] = .ok ([([], true)], []) ∧
    Replace [] [1, 2, 3, 4, 5, 6, 7] [82] [97] = .ok ([([97], true)], []) ∧
    (∀ pat : Bytes, pat.length = 7 →
      ∀ p : Nat, (([97] : Bytes).drop p).take 7 ≠ pat) ∧
    ([([], true)], ([] : List Bytes)) ≠ ([([97], true)], ([] : List Bytes)) := by
  refine ⟨rfl, rfl, ?_, by decide⟩
  intro pat hlen p hp
  have h1 := congrArg List.length hp
  simp [List.length_take, List.length_drop, hlen] at h1
  omega

/-- C10 amended: for ASCII input and ASCII delimiter configuration, two
runs of the same operation with the same pure decision callback whose EOF
sentinels are both disjoint from the input's byte range (nonempty, bytes at
least 128) pass identical chunk sequences to the sink, and produce the same
callback trace. -/
theorem claim_C10_amended (delims : List Delimiter) (f : Bytes → Bytes) (p rw : Bool)
    (repl input : Bytes) (hdel : asciiDelimiters delims) (hin : asciiBytes input)
    (eof1 eof2 : Bytes) (he1 : highBytes eof1) (he2 : highBytes eof2) :
    replaceFilterFunc delims eof1 f p rw repl input =
      replaceFilterFunc delims eof2 f p rw repl input :=
  replaceFilterFunc_high_eof_eq hdel hin he1 he2

theorem claim_C10_amended_witness :
    replaceFilterFunc [⟨[40], [41]⟩] [200, 201, 202, 203, 204, 205, 206]
        (fun v => v) false false [82] [97] =
      replaceFilterFunc [⟨[40], [41]⟩] [210, 211, 212, 213, 214, 215, 216]
        (fun v => v) false false [82] [97] :=
  claim_C10_amended [⟨[40], [41]⟩] (fun v => v) false false [82] [97]
    (by decide) (by decide) _ _ (by decide) (by decide)

/-- The delimiter configuration of the C3 counterexample: a 3-byte start
"xyz" and a 1-byte start "y", both closed by "E". -/
def c3Delims : List Delimiter := [⟨[120, 121, 122], [69]⟩, ⟨[121], [69]⟩]

/-- "xyzE" as bytes. -/
def c3Data : Bytes := [120, 121, 122, 69]

/-- C3 counterexample: both configured pairs have complete candidates in
the window "xyzE"; the first pair's start occurs at window offset 0, the
second pair's start at offset 1.  The claim demands the candidate with the
smallest start offset (`from = 0`), but the scanner compares candidates by
`startIndex = from + len(start)` (3 versus 2) and selects the second
pair's candidate: the emitted token is `data[0:2]` and the recorded value
is "z", coming from the pair whose start offset 1 is NOT minimal. -/
theorem claim_C3_counterexample :
    firstIdx c3Data [120, 121, 122] = some 0 ∧
    firstIdx (c3Data.drop 0) [69] = some 3 ∧
    candidateFor c3Data ⟨[120, 121, 122], [69]⟩ =
      .ok (some ⟨[], ⟨[120, 121, 122], [69]⟩, 3, 3⟩) ∧
    firstIdx c3Data [121] = some 1 ∧
    ScanByDelimiters c3Delims eofHigh c3Data =
      .ok (.tok 3 [120, 121] (some ⟨⟨[121], [69]⟩, [122]⟩)) ∧
    (0 : Nat) < 1 :=
  ⟨rfl, rfl, rfl, rfl, rfl, by decide⟩

/-- C3 amended: the scanner selects the first candidate attaining the
minimal `startIndex` (which is `from + len(start)`, the offset just past
the start token, not the start offset `from` itself); configuration order
breaks exact ties on `startIndex` (every candidate listed before the
winner is strictly larger, every one after is at least as large). -/
theorem claim_C3_amended {cands : List earlyDelimiter} {w : earlyDelimiter}
    (h : selectCloser cands = some w) :
    ∃ l1 l2, cands = l1 ++ w :: l2 ∧ (∀ x ∈ l1, w.startIndex < x.startIndex) ∧
      (∀ x ∈ l2, w.startIndex ≤ x.startIndex) :=
  selectCloser_spec h

theorem claim_C3_amended_witness :
    ∃ l1 l2,
      [(⟨[], ⟨[120, 121, 122], [69]⟩, 3, 3⟩ : earlyDelimiter),
        ⟨[122], ⟨[121], [69]⟩, 2, 3⟩] =
        l1 ++ (⟨[122], ⟨[121], [69]⟩, 2, 3⟩ : earlyDelimiter) :: l2 ∧
      (∀ x ∈ l1,
        (⟨[122], ⟨[121], [69]⟩, 2, 3⟩ : earlyDelimiter).startIndex < x.startIndex) ∧
      (∀ x ∈ l2,
        (⟨[122], ⟨[121], [69]⟩, 2, 3⟩ : earlyDelimiter).startIndex ≤ x.startIndex) :=
  claim_C3_amended rfl

/-- The delimiter pair (A, B) of the C4 counterexample. -/
def c4Del : Delimiter := ⟨[65], [66]⟩

/-- "xAyB z" as bytes. -/
def c4Data : Bytes := [120, 65, 121, 66, 32, 122]

/-- C4 counterexample: on the window "xAyB z" with pair (A, B) the start
token occurs at `from = 1`, yet the reported token is `data[0:2] = "xA"`
(which INCLUDES the start delimiter, not `window[0:from] = "x"`), and the
returned advance is 3 = `from + to`, which stops at the first byte of the
end token: the end delimiter "B" is still at the head of the next window,
contradicting "no byte of the end delimiter remains in the window". -/
theorem claim_C4_counterexample :
    firstIdx c4Data c4Del.Start = some 1 ∧
    ScanByDelimiters [c4Del] eofHigh c4Data =
      .ok (.tok 3 [120, 65] (some ⟨c4Del, [121]⟩)) ∧
    ([120, 65] : Bytes) ≠ c4Data.take 1 ∧
    startsWith (c4Data.drop 3) c4Del.End = true :=
  ⟨rfl, rfl, by decide, rfl⟩

/-- C4 amended: when a candidate is computed for a pair found at `from`
(with the end token found at offset `to` of the suffix window), the
candidate's `startIndex` is `from + len(start)` -- so the reported token
`window[0:startIndex]` is the literal prefix INCLUDING the start token --
and its `endIndex` (the returned advance) is `from + to`, which consumes
up to but NOT including the end token: the end token's bytes are at the
head of the next window. -/
theorem claim_C4_amended {data : Bytes} {del : Delimiter} {e : earlyDelimiter}
    {fr toIdx : Nat}
    (hc : candidateFor data del = .ok (some e))
    (hfr : firstIdx data del.Start = some fr)
    (hto : firstIdx (data.drop fr) del.End = some toIdx) :
    e.startIndex = fr + del.Start.length ∧
    e.endIndex = fr + toIdx ∧
    data.take e.startIndex = data.take fr ++ del.Start ∧
    startsWith (data.drop e.endIndex) del.End = true := by
  unfold candidateFor at hc
  split at hc
  · cases hc
  · rw [hfr] at hc
    dsimp only at hc
    rw [hto] at hc
    dsimp only at hc
    split at hc
    · next hcond =>
      obtain ⟨hc1, hc2⟩ := hcond
      cases hc
      have hend : (((fr : Int) + (del.End.length : Int) +
          ((toIdx : Int) - (del.End.length : Int))).toNat) = fr + toIdx := by
        omega
      refine ⟨rfl, hend, ?_, ?_⟩
      · show data.take (fr + del.Start.length) = data.take fr ++ del.Start
        rw [List.take_add]
        congr 1
        exact startsWith_eq_true_iff.mp (firstIdx_startsWith hfr)
      · show startsWith (data.drop (((fr : Int) + (del.End.length : Int) +
          ((toIdx : Int) - (del.End.length : Int))).toNat)) del.End = true
        rw [hend, ← List.drop_drop]
        exact firstIdx_startsWith hto
    · cases hc

theorem claim_C4_amended_witness :
    (⟨[121], c4Del, 2, 3⟩ : earlyDelimiter).startIndex = 1 + c4Del.Start.length ∧
    (⟨[121], c4Del, 2, 3⟩ : earlyDelimiter).endIndex = 1 + 2 ∧
    c4Data.take (⟨[121], c4Del, 2, 3⟩ : earlyDelimiter).startIndex =
      c4Data.take 1 ++ c4Del.Start ∧
    startsWith (c4Data.drop (⟨[121], c4Del, 2, 3⟩ : earlyDelimiter).endIndex)
      c4Del.End = true :=
  claim_C4_amended rfl rfl rfl

/-- C8 counterexample: for the pair (start = "ab", end = "a") on the window
"ab", the start is found at `from = 0` and the end is found at offset
`to = 0` of the suffix window (inside the start token's own bytes), so
`from + len(start) = 2 > from + to = 0`: the slice `data[x1:x2]` is out of
bounds and the Go program panics (modelled as `.error ()`), contradicting
"slicing never faults -- in particular also when the end sequence occurs
inside the start sequence's bytes". -/
theorem claim_C8_counterexample :
    firstIdx [97, 98] [97, 98] = some 0 ∧
    firstIdx (List.drop 0 [97, 98]) [97] = some 0 ∧
    ¬ (0 + ([97, 98] : Bytes).length ≤ 0 + 0) ∧
    candidateFor [97, 98] ⟨[97, 98], [97]⟩ = .error () :=
  ⟨rfl, rfl, by decide, rfl⟩

/-- C8 amended: the candidate extraction is in bounds whenever the end
token does not begin strictly inside the start token, i.e. whenever
`len(start) ≤ to`: then `from + len(start) ≤ from + to ≤ len(window)` and
the slice is well formed (no fault). -/
theorem claim_C8_amended {data S E : Bytes} {fr toIdx : Nat}
    (_hS : S ≠ []) (hE : E ≠ [])
    (hfr : firstIdx data S = some fr)
    (hto : firstIdx (data.drop fr) E = some toIdx)
    (hge : S.length ≤ toIdx) :
    fr + S.length ≤ fr + toIdx ∧ fr + toIdx ≤ data.length ∧
    candidateFor data ⟨S, E⟩ ≠ .error () := by
  have h1 : toIdx + E.length ≤ data.length - fr := by
    have h0 := firstIdx_add_le hto
    simpa [List.length_drop] using h0
  have h2 := firstIdx_le_length hfr
  have hEpos : 0 < E.length := List.length_pos.mpr hE
  refine ⟨by omega, by omega, ?_⟩
  intro hbad
  unfold candidateFor at hbad
  split at hbad
  · cases hbad
  · rw [show (⟨S, E⟩ : Delimiter).Start = S from rfl,
      show (⟨S, E⟩ : Delimiter).End = E from rfl, hfr] at hbad
    dsimp only at hbad
    rw [hto] at hbad
    dsimp only at hbad
    split at hbad
    · cases hbad
    · next hcond =>
      apply hcond
      constructor <;> push_cast <;> omega

theorem claim_C8_amended_witness :
    0 + ([97] : Bytes).length ≤ 0 + 1 ∧ 0 + 1 ≤ ([97, 98] : Bytes).length ∧
      candidateFor [97, 98] ⟨[97], [98]⟩ ≠ .error () :=
  claim_C8_amended (by decide) (by decide) rfl rfl (by decide)

/-- The scan items of the run on "xAyB z" with pair (A, B): one recorded
match step and the final tail step. -/
def c6ms : List ScanItem := [⟨[120, 65], some ⟨⟨[65], [66]⟩, [121]⟩⟩]

/-- The tail scan item of that run (the remainder with the EOF token
appended). -/
def c6t : ScanItem := ⟨[66, 32, 122] ++ eofHigh, none⟩

/-- C5 counterexample: `ReplaceFilterWith` with constant transform "c" and
`preserveDelimiters = true` on input "AB" with pair (A, B).  The matched
region's captured value is empty, so it is never recorded and the policy is
never applied to it: the output is "AB", not "A" ++ transform("") ++ "B" =
"AcB" as the claim requires. -/
theorem claim_C5_counterexample :
    ReplaceFilterWith [⟨[65], [66]⟩] eofHigh (fun _ => [99]) true [65, 66] =
      .ok ([([65], false), ([66], true)], []) ∧
    concatChunks [([65], false), ([66], true)] = [65, 66] ∧
    ([65, 66] : Bytes) ≠ [65] ++ [99] ++ [66] :=
  ⟨rfl, rfl, by decide⟩

/-- C5 amended: for every run with `preserveDelimiters = true` over ASCII
input with a well-behaved EOF token, PROVIDED every matched region's
captured value is non-empty (hypothesis `hmix`: every scan item is either a
recorded match or the tail), the concatenation of the emitted chunks equals
the direct spec-side reconstruction `specPreservedOutput`: the input with
each matched region's captured value replaced by the policy's decision
bytes and every delimiter byte kept byte-for-byte. -/
theorem claim_C5_amended (delims : List Delimiter) (f : Bytes → Bytes) (rw : Bool)
    (repl eof input : Bytes) (chunks : List (Bytes × Bool)) (trace : List Bytes)
    (items : List ScanItem)
    (hin : asciiBytes input) (he : highBytes eof)
    (hscan : scanTokens delims eof input = .ok items)
    (hmix : ∀ it ∈ items, (it.recorded).isSome = true ∨ endsWith it.token eof = true)
    (hrun : replaceFilterFunc delims eof f true rw repl input = .ok (chunks, trace)) :
    specPreservedOutput delims (decideOf f rw repl) (input.length + 1) input =
      .ok (concatChunks chunks) := by
  unfold replaceFilterFunc at hrun
  rw [hscan] at hrun
  dsimp only at hrun
  have h2 := Except.ok.inj hrun
  have h3 : chunks = (engineGo f true rw repl eof initState items).1 := by rw [h2]
  rw [h3]
  exact preserve_refines he (input.length + 1) input initState hin items hscan hmix

theorem claim_C5_amended_witness :
    specPreservedOutput [⟨[65], [66]⟩] (decideOf (fun v => v) false [82])
        (c4Data.length + 1) c4Data =
      .ok (concatChunks [([120, 65, 82], false), ([66, 32, 122], true)]) :=
  claim_C5_amended [⟨[65], [66]⟩] (fun v => v) false [82] eofHigh c4Data
    [([120, 65, 82], false), ([66, 32, 122], true)] [[121], [121]]
    (c6ms ++ [c6t]) (by decide) (by decide) rfl (by decide) rfl

/-- C6 counterexample: on "xAyB z" with pair (A, B) exactly one region is
matched (one recorded value), yet the decision callback is invoked twice --
once at the match step and once more at the final tail step with the same
value -- contradicting "invoked exactly once per matched region". -/
theorem claim_C6_counterexample :
    ReplaceFilterWith [⟨[65], [66]⟩] eofHigh (fun v => v) false c4Data =
      .ok ([([120, 121], false), ([32, 122], true)], [[121], [121]]) ∧
    (scanTokens [⟨[65], [66]⟩] eofHigh c4Data).map
      (fun items => (matchVals items).length) = .ok 1 ∧
    ([[121], [121]] : List Bytes).length = 2 :=
  ⟨rfl, rfl, rfl⟩

/-- C6 amended: when every matched region records a (non-empty) value, the
decision callback is invoked once per matched region, in stream order, with
that region's captured value, at the engine iteration that emits that
region's chunk (before its replacement bytes are appended) -- and then once
MORE at the final tail iteration, with the most recently recorded value
(the result of that last invocation is discarded).  The callback trace is
exactly the list of match values followed by a repeat of the last one. -/
theorem claim_C6_amended (delims : List Delimiter) (eof : Bytes) (f : Bytes → Bytes)
    (p rw : Bool) (repl input : Bytes) (ms : List ScanItem) (t : ScanItem)
    (chunks : List (Bytes × Bool)) (trace : List Bytes)
    (hscan : scanTokens delims eof input = .ok (ms ++ [t]))
    (hms : ∀ m ∈ ms, (m.recorded).isSome = true)
    (ht : t.recorded = none)
    (hrun : replaceFilterFunc delims eof f p rw repl input = .ok (chunks, trace)) :
    trace = matchVals ms ++
      (match (matchVals ms).getLast? with | some v => [v] | none => []) := by
  unfold replaceFilterFunc at hrun
  rw [hscan] at hrun
  dsimp only at hrun
  have h2 := Except.ok.inj hrun
  have h3 : trace = (engineGo f p rw repl eof initState (ms ++ [t])).2 := by rw [h2]
  rw [h3, engineGo_trace_shape ms t initState hms ht]
  simp [initState]

theorem claim_C6_amended_witness :
    ([[121], [121]] : List Bytes) = matchVals c6ms ++
      (match (matchVals c6ms).getLast? with | some v => [v] | none => []) :=
  claim_C6_amended [⟨[65], [66]⟩] eofHigh (fun v => v) false true [] c4Data
    c6ms c6t [([120, 121], false), ([32, 122], true)] [[121], [121]]
    rfl (by decide) rfl rfl

/-- C9: every entry recorded in `valuesData` has a non-empty value (the
append in the split function is guarded by `len(delimiterVal) > 0`), and
consequently the decision callback is never invoked with an empty byte
sequence: every argument it receives is the value of the most recently
recorded (non-empty) entry. -/
theorem claim_C9 :
    (∀ (delims : List Delimiter) (eof : Bytes) (fuel : Nat) (data : Bytes)
        (items : List ScanItem), scanTokensF delims eof fuel data = .ok items →
        ∀ it ∈ items, ∀ rd : replacementData, it.recorded = some rd → rd.value ≠ []) ∧
    (∀ (delims : List Delimiter) (eof : Bytes) (f : Bytes → Bytes) (p rw : Bool)
        (repl input : Bytes) (chunks : List (Bytes × Bool)) (trace : List Bytes),
        replaceFilterFunc delims eof f p rw repl input = .ok (chunks, trace) →
        ∀ v ∈ trace, v ≠ []) := by
  constructor
  · intro delims eof fuel data items h
    exact scanTokensF_recorded_nonempty h
  · intro delims eof f p rw repl input chunks trace h v hv
    unfold replaceFilterFunc at h
    cases hscan : scanTokens delims eof input with
    | error e =>
      rw [hscan] at h
      cases h
    | ok items =>
      rw [hscan] at h
      dsimp only at h
      have h2 := Except.ok.inj h
      have h3 : trace = (engineGo f p rw repl eof initState items).2 := by rw [h2]
      rw [h3] at hv
      exact engineGo_trace_nonempty items initState
        (fun rd hrd => absurd hrd (List.not_mem_nil rd))
        (scanTokensF_recorded_nonempty hscan) v hv

theorem claim_C9_witness :
    ∀ v ∈ ([[121], [121]] : List Bytes), v ≠ [] :=
  claim_C9.2 [⟨[65], [66]⟩] eofHigh (fun v => v) false true [] c4Data
    [([120, 121], false), ([32, 122], true)] [[121], [121]] rfl

end Redel
